import Mathlib

/-!
Verification of the `nonascii_filter` source sanitizer.

Part 1 embeds the byte-level scanner `scan_non_ascii` from `src/main.rs`
as a fold over the input byte list (bytes modelled as `Nat`, ASCII means
value ≤ 127, the line terminator is byte 10).
-/

/-- `u8::is_ascii`: the byte value is at most 127. -/
def isAscii (b : Nat) : Bool := decide (b ≤ 127)

/-- The `NonAsciiScan` struct of `src/main.rs`. -/
structure NonAsciiScan where
  filtered : List Nat
  non_ascii_positions : List (Nat × Nat)
  non_ascii_bytes : List Nat
deriving Repr, DecidableEq

/-- The mutable state of the loop in `scan_non_ascii`: the three output
vectors plus the running `line` and `col` counters. -/
structure ScanState where
  filtered : List Nat
  non_ascii_positions : List (Nat × Nat)
  non_ascii_bytes : List Nat
  line : Nat
  col : Nat
deriving Repr, DecidableEq

/-- One iteration of the `for &b in data` loop of `scan_non_ascii`:
on a newline, bump `line` and reset `col` first; then route the byte to
`filtered` or to the non-ASCII records; finally bump `col` unless the byte
was the newline itself. -/
def scanByte (s : ScanState) (b : Nat) : ScanState :=
  let s1 := if b = 10 then { s with line := s.line + 1, col := 1 } else s
  let s2 :=
    if isAscii b then
      { s1 with filtered := s1.filtered ++ [b] }
    else
      { s1 with
        non_ascii_positions := s1.non_ascii_positions ++ [(s1.line, s1.col)],
        non_ascii_bytes := s1.non_ascii_bytes ++ [b] }
  if b ≠ 10 then { s2 with col := s2.col + 1 } else s2

/-- `scan_non_ascii` from `src/main.rs`: fold the loop body over the bytes,
starting from empty vectors with `line = 1`, `col = 1`. -/
def scan_non_ascii (data : List Nat) : NonAsciiScan :=
  let s := data.foldl scanByte ⟨[], [], [], 1, 1⟩
  ⟨s.filtered, s.non_ascii_positions, s.non_ascii_bytes⟩

/-- The position list the loop produces from given starting counters. -/
def posFrom (line col : Nat) : List Nat → List (Nat × Nat)
  | [] => []
  | b :: rest =>
    if b = 10 then posFrom (line + 1) 1 rest
    else if isAscii b then posFrom line (col + 1) rest
    else (line, col) :: posFrom line (col + 1) rest

/-- The value of the column counter after the loop consumes a byte list. -/
def endCol (col : Nat) : List Nat → Nat
  | [] => col
  | b :: rest => if b = 10 then endCol 1 rest else endCol (col + 1) rest

theorem foldl_scanByte (data : List Nat) : ∀ s : ScanState,
    data.foldl scanByte s =
      ⟨s.filtered ++ data.filter isAscii,
       s.non_ascii_positions ++ posFrom s.line s.col data,
       s.non_ascii_bytes ++ data.filter (fun b => !isAscii b),
       s.line + data.count 10,
       endCol s.col data⟩ := by
  induction data with
  | nil => intro s; simp [posFrom, endCol]
  | cons b rest ih =>
    intro s
    rw [List.foldl_cons, ih]
    by_cases hb : b = 10
    · subst hb
      have ha : isAscii 10 = true := by decide
      simp only [scanByte, ha, if_pos rfl, if_true, ite_not, if_pos]
      simp [posFrom, endCol, List.count_cons, List.filter_cons, ha]
      omega
    · by_cases ha : isAscii b = true
      · simp only [scanByte, if_neg hb, ha, if_true]
        simp [posFrom, endCol, List.count_cons, List.filter_cons, hb, ha,
          if_neg hb]
      · simp only [scanByte, if_neg hb, ha]
        simp [posFrom, endCol, List.count_cons, List.filter_cons, hb, ha,
          if_neg hb]

theorem scan_filtered (data : List Nat) :
    (scan_non_ascii data).filtered = data.filter isAscii := by
  simp [scan_non_ascii, foldl_scanByte]

theorem scan_positions (data : List Nat) :
    (scan_non_ascii data).non_ascii_positions = posFrom 1 1 data := by
  simp [scan_non_ascii, foldl_scanByte]

theorem scan_bytes (data : List Nat) :
    (scan_non_ascii data).non_ascii_bytes =
      data.filter (fun b => !isAscii b) := by
  simp [scan_non_ascii, foldl_scanByte]

/-! ### Counting and conservation lemmas for the byte scanner -/

theorem posFrom_length (data : List Nat) : ∀ line col : Nat,
    (posFrom line col data).length =
      (data.filter (fun b => !isAscii b)).length := by
  induction data with
  | nil => intro line col; simp [posFrom]
  | cons b rest ih =>
    intro line col
    by_cases hb : b = 10
    · subst hb
      have ha : isAscii 10 = true := by decide
      simp [posFrom, List.filter_cons, ha, ih]
    · by_cases ha : isAscii b = true
      · simp [posFrom, List.filter_cons, hb, ha, ih]
      · simp [posFrom, List.filter_cons, hb, ha, ih]

theorem filter_length_partition (data : List Nat) :
    (data.filter isAscii).length +
      (data.filter (fun b => !isAscii b)).length = data.length := by
  induction data with
  | nil => simp
  | cons b rest ih =>
    by_cases ha : isAscii b = true
    · simp [List.filter_cons, ha]; omega
    · simp [List.filter_cons, ha]; omega

/-- Interleave two byte streams back together, pulling the next byte from
the ASCII stream or the non-ASCII stream according to the ASCII-ness of the
corresponding byte of the guide sequence. -/
def mergeAscii : List Nat → List Nat → List Nat → List Nat
  | [], _, _ => []
  | g :: gs, as, ns =>
    if isAscii g then
      match as with
      | [] => []
      | a :: as2 => a :: mergeAscii gs as2 ns
    else
      match ns with
      | [] => []
      | n :: ns2 => n :: mergeAscii gs as ns2

theorem mergeAscii_filter (data : List Nat) :
    mergeAscii data (data.filter isAscii)
      (data.filter (fun b => !isAscii b)) = data := by
  induction data with
  | nil => rfl
  | cons b rest ih =>
    by_cases ha : isAscii b = true
    · simp [mergeAscii, List.filter_cons, ha, ih]
    · simp [mergeAscii, List.filter_cons, ha, ih]

/-- C1: every byte of `scan_non_ascii(b).filtered` is ASCII (value ≤ 127);
no non-ASCII byte is ever appended to the filtered output. -/
theorem ascii_purity (data : List Nat) :
    ∀ x ∈ (scan_non_ascii data).filtered, x ≤ 127 := by
  intro x hx
  rw [scan_filtered] at hx
  have h := List.of_mem_filter hx
  simpa [isAscii] using h

theorem ascii_purity_witness : (97 : Nat) ≤ 127 :=
  ascii_purity [97, 200] 97 (by decide)

/-- C8: one `(line, column)` entry is recorded per removed non-ASCII byte,
so `non_ascii_positions` and `non_ascii_bytes` have equal length. -/
theorem position_byte_count_consistency (data : List Nat) :
    (scan_non_ascii data).non_ascii_positions.length =
      (scan_non_ascii data).non_ascii_bytes.length := by
  rw [scan_positions, scan_bytes, posFrom_length]

/-- C10: byte conservation — `scan_non_ascii` partitions the input:
`filtered` is exactly the ASCII subsequence, `non_ascii_bytes` exactly the
non-ASCII subsequence, the lengths add up to the input length, and merging
the two streams back by each input byte's ASCII-ness reconstructs the
input exactly. -/
theorem byte_conservation (data : List Nat) :
    (scan_non_ascii data).filtered = data.filter isAscii ∧
    (scan_non_ascii data).non_ascii_bytes =
      data.filter (fun b => !isAscii b) ∧
    (scan_non_ascii data).filtered.length +
      (scan_non_ascii data).non_ascii_bytes.length = data.length ∧
    mergeAscii data (scan_non_ascii data).filtered
      (scan_non_ascii data).non_ascii_bytes = data := by
  refine ⟨scan_filtered data, scan_bytes data, ?_, ?_⟩
  · rw [scan_filtered, scan_bytes]; exact filter_length_partition data
  · rw [scan_filtered, scan_bytes]; exact mergeAscii_filter data

/-! ### The rewrite decision of `process_single_file` -/

/-- The write condition of `process_single_file` in `src/main.rs`: a write
happens exactly inside `if !result.non_ascii_positions.is_empty()` and then
`if result.filtered != data`. The sha256 digests are computed on the same
two byte sequences and compared as content stand-ins; with equal digests
treated as equal content, comparing digests is comparing the sequences. -/
def write_required (data : List Nat) : Bool :=
  let result := scan_non_ascii data
  !result.non_ascii_positions.isEmpty && !(result.filtered == data)

theorem all_ascii_iff_positions_nil (data : List Nat) :
    ((scan_non_ascii data).non_ascii_positions = [] ↔
      ∀ b ∈ data, isAscii b = true) := by
  constructor
  · intro h b hb
    by_contra hn
    have hlen := posFrom_length data 1 1
    rw [← scan_positions, h] at hlen
    have : b ∈ data.filter (fun b => !isAscii b) :=
      List.mem_filter.mpr ⟨hb, by simp [hn]⟩
    rcases List.length_eq_zero.mp hlen.symm with hf
    simp [hf] at this
  · intro h
    have hlen := posFrom_length data 1 1
    rw [← scan_positions] at hlen
    have hf : data.filter (fun b => !isAscii b) = [] := by
      apply List.filter_eq_nil_iff.mpr
      intro b hb
      simp [h b hb]
    rw [hf] at hlen
    exact List.length_eq_zero.mp hlen

theorem filtered_eq_iff_all_ascii (data : List Nat) :
    ((scan_non_ascii data).filtered = data ↔
      ∀ b ∈ data, isAscii b = true) := by
  rw [scan_filtered]
  constructor
  · intro h b hb
    exact List.filter_eq_self.mp h b hb
  · intro h
    exact List.filter_eq_self.mpr h

/-- C7: the rewrite decision triggers a write exactly when the original
content and the filtered content differ (equal fingerprints standing for
equal content); when they agree no write happens and the file is left
unmodified. -/
theorem rewrite_decision (data : List Nat) :
    write_required data = true ↔ (scan_non_ascii data).filtered ≠ data := by
  unfold write_required
  simp only [Bool.and_eq_true, Bool.not_eq_true', List.isEmpty_eq_false,
    beq_eq_false_iff_ne, ne_eq]
  constructor
  · rintro ⟨-, h2⟩; exact h2
  · intro h
    refine ⟨?_, h⟩
    intro hnil
    exact h ((filtered_eq_iff_all_ascii data).mpr
      ((all_ascii_iff_positions_nil data).mp hnil))

theorem rewrite_decision_witness : write_required [200] = true :=
  (rewrite_decision [200]).mpr (by decide)

/-! ### Closed form for the recorded line/column positions (C5) -/

/-- Pair each element with its 0-based index, starting the count at `i`. -/
def withIdx {α : Type} (i : Nat) : List α → List (Nat × α)
  | [] => []
  | b :: rest => (i, b) :: withIdx (i + 1) rest

theorem withIdx_succ {α : Type} (l : List α) : ∀ s : Nat,
    withIdx (s + 1) l = (withIdx s l).map (fun q => (q.1 + 1, q.2)) := by
  induction l with
  | nil => intro s; simp [withIdx]
  | cons b rest ih => intro s; simp [withIdx, ih (s + 1)]

theorem takeWhile_append (p : Nat → Bool) (xs ys : List Nat) :
    (xs ++ ys).takeWhile p =
      if xs.all p then xs ++ ys.takeWhile p else xs.takeWhile p := by
  induction xs with
  | nil => simp
  | cons x xs ih =>
    by_cases hx : p x = true
    · simp only [List.cons_append, List.takeWhile_cons, hx, List.all_cons, ih]
      by_cases hall : xs.all p = true <;> simp [hall, hx]
    · simp [List.takeWhile_cons, hx, List.all_cons]

theorem takeWhile_all (p : Nat → Bool) (xs : List Nat)
    (h : xs.all p = true) : xs.takeWhile p = xs := by
  have := takeWhile_append p xs []
  simpa [h] using this

/-- Length of the maximal run of non-newline bytes at the end of a list:
the distance from the last newline (or from the start). -/
def trailRun (p : List Nat) : Nat :=
  (p.reverse.takeWhile (fun b => b != 10)).length

/-- The column counter value after the scanner consumed the bytes `p` of
the current input prefix, having entered it with column `col`. -/
def colAt (col : Nat) (p : List Nat) : Nat :=
  if 10 ∈ p then 1 + trailRun p else col + p.length

theorem trailRun_all (p : List Nat) (h : 10 ∉ p) : trailRun p = p.length := by
  unfold trailRun
  rw [takeWhile_all]
  · simp
  · simp only [List.all_eq_true, List.mem_reverse]
    intro x hx
    simp only [bne_iff_ne, ne_eq]
    intro hx10; exact h (hx10 ▸ hx)


theorem trailRun_cons_mem (b : Nat) (t : List Nat) (hmem : 10 ∈ t) :
    trailRun (b :: t) = trailRun t := by
  unfold trailRun
  rw [List.reverse_cons, takeWhile_append]
  have hall : (t.reverse.all fun x => x != 10) = false := by
    rw [Bool.eq_false_iff]
    intro hc
    have := List.all_eq_true.mp hc 10 (List.mem_reverse.mpr hmem)
    simp at this
  simp [hall]

theorem colAt_cons (col b : Nat) (t : List Nat) :
    colAt col (b :: t) = if b = 10 then colAt 1 t else colAt (col + 1) t := by
  by_cases hb : b = 10
  · subst hb
    have h1 : (10:Nat) ∈ 10 :: t := List.mem_cons_self 10 t
    by_cases hmem : 10 ∈ t
    · simp [colAt, h1, hmem, trailRun_cons_mem 10 t hmem]
    · have htr : trailRun (10 :: t) = t.length := by
        unfold trailRun
        rw [List.reverse_cons, takeWhile_append]
        have hall : (t.reverse.all fun x => x != 10) = true := by
          apply List.all_eq_true.mpr
          intro x hx
          simp only [bne_iff_ne, ne_eq]
          intro h10; exact hmem (h10 ▸ List.mem_reverse.mp hx)
        simp [hall, List.takeWhile]
      simp [colAt, h1, hmem, htr, trailRun_all t hmem]
  · by_cases hmem : 10 ∈ t
    · have h1 : (10:Nat) ∈ b :: t := List.mem_cons_of_mem b hmem
      simp [colAt, h1, hmem, trailRun_cons_mem b t hmem, hb]
    · have h1 : (10:Nat) ∉ b :: t := by
        intro hc
        rcases List.mem_cons.mp hc with h | h
        · exact hb h.symm
        · exact hmem h
      simp [colAt, h1, hmem, hb]
      omega

theorem colAt_one (p : List Nat) : colAt 1 p = 1 + trailRun p := by
  unfold colAt
  by_cases hmem : 10 ∈ p
  · simp [hmem]
  · simp [hmem, trailRun_all p hmem]

theorem filterMap_withIdx_cons {α : Type} (F : Nat × α → Option (Nat × Nat))
    (b : α) (rest : List α) :
    (withIdx 0 (b :: rest)).filterMap F =
      (match F (0, b) with
       | none => (withIdx 0 rest).filterMap (fun q => F (q.1 + 1, q.2))
       | some y => y :: (withIdx 0 rest).filterMap (fun q => F (q.1 + 1, q.2))) := by
  rw [withIdx, withIdx_succ, List.filterMap_cons, List.filterMap_map]
  rcases hF : F (0, b) with _ | y <;> simp [hF, Function.comp_def]

theorem filterMap_withIdx_cons_none {α : Type} (F : Nat × α → Option (Nat × Nat))
    (b : α) (rest : List α) (h : F (0, b) = none) :
    (withIdx 0 (b :: rest)).filterMap F =
      (withIdx 0 rest).filterMap (fun q => F (q.1 + 1, q.2)) := by
  rw [filterMap_withIdx_cons, h]

theorem filterMap_withIdx_cons_some {α : Type} (F : Nat × α → Option (Nat × Nat))
    (b : α) (rest : List α) (y : Nat × Nat) (h : F (0, b) = some y) :
    (withIdx 0 (b :: rest)).filterMap F =
      y :: (withIdx 0 rest).filterMap (fun q => F (q.1 + 1, q.2)) := by
  rw [filterMap_withIdx_cons, h]

theorem posFrom_closed (data : List Nat) : ∀ line col : Nat,
    posFrom line col data =
      (withIdx 0 data).filterMap (fun q =>
        if isAscii q.2 then none
        else some (line + (data.take q.1).count 10,
                   colAt col (data.take q.1))) := by
  induction data with
  | nil => intro line col; simp [posFrom, withIdx]
  | cons b rest ih =>
    intro line col
    by_cases hb : b = 10
    · subst hb
      rw [filterMap_withIdx_cons_none _ _ _ (by simp [isAscii])]
      have hstep : posFrom line col (10 :: rest) = posFrom (line + 1) 1 rest := rfl
      rw [hstep, ih (line + 1) 1]
      have hfun2 : (fun q : Nat × Nat =>
          if isAscii q.2 then none
          else some (line + ((10 :: rest).take (q.1 + 1)).count 10,
                     colAt col ((10 :: rest).take (q.1 + 1))))
          = (fun q : Nat × Nat =>
          if isAscii q.2 then (none : Option (Nat × Nat))
          else some (line + 1 + (rest.take q.1).count 10,
                     colAt 1 (rest.take q.1))) := by
        funext q
        by_cases hq : isAscii q.2 = true
        · simp [hq]
        · simp [hq, List.take_succ_cons, colAt_cons, List.count_cons]
          omega
      rw [hfun2]
    · by_cases ha : isAscii b = true
      · rw [filterMap_withIdx_cons_none _ _ _ (by simp [ha])]
        have hstep : posFrom line col (b :: rest) = posFrom line (col + 1) rest := by
          rw [posFrom, if_neg hb, if_pos ha]
        rw [hstep, ih line (col + 1)]
        have hfun2 : (fun q : Nat × Nat =>
            if isAscii q.2 then none
            else some (line + ((b :: rest).take (q.1 + 1)).count 10,
                       colAt col ((b :: rest).take (q.1 + 1))))
            = (fun q : Nat × Nat =>
            if isAscii q.2 then (none : Option (Nat × Nat))
            else some (line + (rest.take q.1).count 10,
                       colAt (col + 1) (rest.take q.1))) := by
          funext q
          by_cases hq : isAscii q.2 = true
          · simp [hq]
          · simp [hq, List.take_succ_cons, colAt_cons, List.count_cons, hb]
        rw [hfun2]
      · have hcol : colAt col ([] : List Nat) = col := by simp [colAt]
        rw [filterMap_withIdx_cons_some _ _ _ (line, col)
          (by simp [if_neg ha, hcol])]
        have hstep : posFrom line col (b :: rest)
            = (line, col) :: posFrom line (col + 1) rest := by
          rw [posFrom, if_neg hb, if_neg ha]
        rw [hstep, ih line (col + 1)]
        have hfun2 : (fun q : Nat × Nat =>
            if isAscii q.2 then none
            else some (line + ((b :: rest).take (q.1 + 1)).count 10,
                       colAt col ((b :: rest).take (q.1 + 1))))
            = (fun q : Nat × Nat =>
            if isAscii q.2 then (none : Option (Nat × Nat))
            else some (line + (rest.take q.1).count 10,
                       colAt (col + 1) (rest.take q.1))) := by
          funext q
          by_cases hq : isAscii q.2 = true
          · simp [hq]
          · simp [hq, List.take_succ_cons, colAt_cons, List.count_cons, hb]
        rw [hfun2]

/-- Line number of the byte at 0-based index `k`: one more than the number
of newlines strictly before it. -/
def lineIdx (data : List Nat) (k : Nat) : Nat := 1 + (data.take k).count 10

/-- Column of the byte at 0-based index `k`: one more than the number of
bytes after the last newline strictly before it (or after the start of the
input), counting every byte, ASCII or not. -/
def colIdx (data : List Nat) (k : Nat) : Nat :=
  1 + ((data.take k).reverse.takeWhile (fun b => b != 10)).length

/-- C5: positions are 1-indexed and tracked per line — each non-ASCII byte
at index `k` is recorded at line `1 + (newlines before k)`, so the line
counter starts at 1 and increments at each newline, and at column
`1 + (bytes since the last newline before k)`, so the column counter
resets to 1 right after each newline and increments for every examined
byte of the line, the dropped non-ASCII bytes included. -/
theorem positions_per_line (data : List Nat) :
    (scan_non_ascii data).non_ascii_positions =
      (withIdx 0 data).filterMap (fun q =>
        if isAscii q.2 then none
        else some (lineIdx data q.1, colIdx data q.1)) := by
  rw [scan_positions, posFrom_closed]
  congr 1
  funext q
  by_cases hq : isAscii q.2 = true
  · simp [hq]
  · simp only [hq, Bool.false_eq_true, if_false, lineIdx, colIdx,
      colAt_one, trailRun]

/-!
### The line-based scan engine, modelled from the spec

The repository's collapsed canonical engine (spec §4.1–4.2) splits the
input into newline-delimited lines, drops whole lines matching a fixed
watermark pattern set, byte-filters the remaining lines, and appends a
line terminator after every line. None of this line/watermark machinery
is present under `src/` (its `scan_non_ascii` is the bare byte filter
above), so it is modelled here from the spec's words.
-/

/-- Modelled from the spec: split a byte sequence at every newline into
parts, the part after the last newline included (possibly empty). -/
def splitOnNl : List Nat → List (List Nat)
  | [] => [[]]
  | b :: rest =>
    let r := splitOnNl rest
    if b = 10 then [] :: r else (b :: r.headI) :: r.tail

/-- Modelled from the spec: the text lines of the input — split on `\n`
boundaries, each line excluding its terminator, a trailing terminator not
producing an extra empty final line. -/
def splitLines (data : List Nat) : List (List Nat) :=
  let P := splitOnNl data
  if P.getLast? = some [] then P.dropLast else P

/-- Does the list start with `n` consecutive bytes equal to `c`? -/
def startsRun (c : Nat) : Nat → List Nat → Bool
  | 0, _ => true
  | _ + 1, [] => false
  | n + 1, b :: rest => b == c && startsRun c n rest

/-- 0-based index of the first suffix satisfying `p` (leftmost match). -/
def findAt (p : List Nat → Bool) : List Nat → Option Nat
  | [] => none
  | b :: rest => if p (b :: rest) then some 0 else (findAt p rest).map (· + 1)

/-- After `//`: optional whitespace (space or tab), then two dashes. -/
def dashesAfterWs : List Nat → Bool
  | 32 :: rest => dashesAfterWs rest
  | 9 :: rest => dashesAfterWs rest
  | 45 :: 45 :: _ => true
  | _ => false

/-- Does the list start with `//`, optional whitespace, then `--`? -/
def startsSlashDashes : List Nat → Bool
  | 47 :: 47 :: rest => dashesAfterWs rest
  | _ => false

/-- Modelled from the spec: the watermark Pattern Matcher (§4.1). The four
fixed patterns are tried in order, first match wins; the result is the
1-indexed column of the leftmost match plus the pattern's label. The line
is matched at byte granularity, a non-ASCII byte acting as an opaque
non-pattern, non-whitespace character. -/
def watermark_match (l : List Nat) : Option (Nat × String) :=
  match findAt (startsRun 42 3) l with
  | some i => some (i + 1, "asterisk-run")
  | none =>
    match findAt (startsRun 61 3) l with
    | some i => some (i + 1, "equals-run")
    | none =>
      match findAt (startsRun 47 3) l with
      | some i => some (i + 1, "slash-run")
      | none =>
        match findAt startsSlashDashes l with
        | some i => some (i + 1, "slash-slash-dashes")
        | none => none

/-- Modelled from the spec: the `ScanResult` record (§3). -/
structure ScanResult where
  filtered : List Nat
  non_ascii_positions : List (Nat × Nat)
  removed_bytes : List Nat
  watermark_hits : List (Nat × Nat × String)
deriving Repr, DecidableEq

/-- ASCII bytes of one line, in order. -/
def lineFiltered (l : List Nat) : List Nat := l.filter isAscii

/-- `(line, column)` records of one line's non-ASCII bytes, columns
1-indexed and counting every byte of the line. -/
def linePositions (n : Nat) (l : List Nat) : List (Nat × Nat) :=
  (withIdx 1 l).filterMap (fun q => if isAscii q.2 then none else some (n, q.1))

/-- Non-ASCII bytes of one line, in order. -/
def lineRemoved (l : List Nat) : List Nat := l.filter (fun b => !isAscii b)

/-- What one line contributes to `filtered`, its terminator excluded:
nothing for a watermark line, its ASCII bytes otherwise. -/
def linePiece (l : List Nat) : List Nat :=
  match watermark_match l with
  | some _ => []
  | none => lineFiltered l

/-- Modelled from the spec: the Scan-and-Filter Engine (§4.2). Lines are
processed in order with the line counter starting at 1; a line matching a
watermark pattern contributes only a terminator to `filtered` and one
`watermark_hits` entry, and is not byte-scanned; any other line is
byte-filtered with 1-indexed columns; every line's contribution ends with
an appended terminator. Per-line processing is independent, so the
sequential loop is expressed compositionally over the line list. -/
def scan (data : List Nat) : ScanResult :=
  let ls := splitLines data
  { filtered := (ls.map (fun l => linePiece l ++ [10])).flatten
  , non_ascii_positions := ((withIdx 1 ls).map (fun p =>
      match watermark_match p.2 with
      | some _ => []
      | none => linePositions p.1 p.2)).flatten
  , removed_bytes := (ls.map (fun l =>
      match watermark_match l with
      | some _ => []
      | none => lineRemoved l)).flatten
  , watermark_hits := (withIdx 1 ls).filterMap (fun p =>
      (watermark_match p.2).map (fun m => (p.1, m.1, m.2))) }

/-- Spec §8, concrete scenario 3: the empty file scans to an all-empty
result. -/
theorem scan_empty : scan [] = ⟨[], [], [], []⟩ := by decide

/-- Spec §8, concrete scenario 1: UTF-8 `café\n` loses the two bytes of
`é`, recorded at columns 4 and 5 of line 1. -/
theorem scan_cafe : scan [99, 97, 102, 195, 169, 10] =
    ⟨[99, 97, 102, 10], [(1, 4), (1, 5)], [195, 169], []⟩ := by decide

/-- Spec §8, concrete scenario 2: `// ----` matches the fourth watermark
pattern at line 1, column 1, and is replaced by an empty line. -/
theorem scan_slash_dashes : scan [47, 47, 32, 45, 45, 45, 45, 10, 102, 110, 10] =
    ⟨[10, 102, 110, 10], [], [], [(1, 1, "slash-slash-dashes")]⟩ := by decide

/-! ### Lines / flatten round trip -/

theorem splitOnNl_ne_nil (d : List Nat) : splitOnNl d ≠ [] := by
  cases d with
  | nil => simp [splitOnNl]
  | cons b rest =>
    by_cases hb : b = 10 <;> simp [splitOnNl, hb]

theorem cons_headI_tail (L : List (List Nat)) (h : L ≠ []) :
    L.headI :: L.tail = L := by
  cases L with
  | nil => exact absurd rfl h
  | cons x xs => rfl

theorem splitOnNl_append (l rest : List Nat) (h : 10 ∉ l) :
    splitOnNl (l ++ rest) =
      (l ++ (splitOnNl rest).headI) :: (splitOnNl rest).tail := by
  induction l with
  | nil =>
    simp only [List.nil_append]
    exact (cons_headI_tail _ (splitOnNl_ne_nil rest)).symm
  | cons b l ih =>
    have hb : b ≠ 10 := by
      intro hc; exact h (hc ▸ List.mem_cons_self b l)
    have hl : 10 ∉ l := fun hc => h (List.mem_cons_of_mem b hc)
    rw [List.cons_append]
    simp only [splitOnNl, if_neg hb]
    rw [ih hl]
    rfl

theorem splitOnNl_flatten (L : List (List Nat)) (h : ∀ l ∈ L, 10 ∉ l) :
    splitOnNl ((L.map (fun l => l ++ [10])).flatten) = L ++ [[]] := by
  induction L with
  | nil => simp [splitOnNl]
  | cons l L ih =>
    have hl : 10 ∉ l := h l (List.mem_cons_self l L)
    have hL : ∀ x ∈ L, 10 ∉ x := fun x hx => h x (List.mem_cons_of_mem l hx)
    simp only [List.map_cons, List.flatten_cons, List.append_assoc,
      List.singleton_append]
    rw [splitOnNl_append l _ hl]
    have h10 : splitOnNl (10 :: (L.map (fun l => l ++ [10])).flatten) =
        [] :: splitOnNl ((L.map (fun l => l ++ [10])).flatten) := by
      simp [splitOnNl]
    rw [h10, ih hL]
    simp

theorem splitLines_flatten (L : List (List Nat)) (h : ∀ l ∈ L, 10 ∉ l) :
    splitLines ((L.map (fun l => l ++ [10])).flatten) = L := by
  simp only [splitLines]
  rw [splitOnNl_flatten L h, List.getLast?_concat]
  simp [List.dropLast_concat]

theorem splitOnNl_no_nl (d : List Nat) : ∀ l ∈ splitOnNl d, 10 ∉ l := by
  induction d with
  | nil => intro l hl; simp [splitOnNl] at hl; simp [hl]
  | cons b rest ih =>
    intro l hl
    by_cases hb : b = 10
    · subst hb
      have hs : splitOnNl (10 :: rest) = [] :: splitOnNl rest := by
        simp [splitOnNl]
      rw [hs] at hl
      rcases List.mem_cons.mp hl with heq | hl
      · rw [heq]; simp
      · exact ih l hl
    · have hs : splitOnNl (b :: rest) =
          (b :: (splitOnNl rest).headI) :: (splitOnNl rest).tail := by
        simp [splitOnNl, hb]
      rw [hs] at hl
      rcases List.mem_cons.mp hl with heq | hl
      · rw [heq]
        intro hc
        rcases List.mem_cons.mp hc with h1 | h1
        · exact hb h1.symm
        · have hh : (splitOnNl rest).headI ∈ splitOnNl rest := by
            rw [← cons_headI_tail _ (splitOnNl_ne_nil rest)]
            exact List.mem_cons_self _ _
          exact ih _ hh h1
      · exact ih l (List.mem_of_mem_tail hl)

theorem splitLines_no_nl (d : List Nat) : ∀ l ∈ splitLines d, 10 ∉ l := by
  intro l hl
  unfold splitLines at hl
  by_cases hc : (splitOnNl d).getLast? = some ([] : List Nat)
  · rw [if_pos hc] at hl
    exact splitOnNl_no_nl d l ((List.dropLast_sublist _).subset hl)
  · rw [if_neg hc] at hl
    exact splitOnNl_no_nl d l hl

/-! ### Structure of `scan`'s output -/

theorem scan_filtered_def (data : List Nat) :
    (scan data).filtered =
      ((splitLines data).map (fun l => linePiece l ++ [10])).flatten := rfl

theorem scan_positions_def (data : List Nat) :
    (scan data).non_ascii_positions =
      ((withIdx 1 (splitLines data)).map (fun p =>
        match watermark_match p.2 with
        | some _ => []
        | none => linePositions p.1 p.2)).flatten := rfl

theorem scan_hits_def (data : List Nat) :
    (scan data).watermark_hits =
      (withIdx 1 (splitLines data)).filterMap (fun p =>
        (watermark_match p.2).map (fun m => (p.1, m.1, m.2))) := rfl

theorem linePiece_no_nl (l : List Nat) (h : 10 ∉ l) : 10 ∉ linePiece l := by
  unfold linePiece
  cases hw : watermark_match l with
  | some m => simp
  | none =>
    intro hc
    exact h (List.mem_of_mem_filter hc)

theorem linePiece_ascii (l : List Nat) :
    ∀ b ∈ linePiece l, isAscii b = true := by
  unfold linePiece
  cases hw : watermark_match l with
  | some m => simp
  | none =>
    intro b hb
    exact List.of_mem_filter hb

theorem map_piece_term (L : List (List Nat)) :
    L.map (fun l => linePiece l ++ [10]) =
      (L.map linePiece).map (fun l => l ++ [10]) := by
  rw [List.map_map]
  rfl

theorem splitLines_scan (data : List Nat) :
    splitLines (scan data).filtered = (splitLines data).map linePiece := by
  rw [scan_filtered_def, map_piece_term, splitLines_flatten]
  intro l hl
  rcases List.mem_map.mp hl with ⟨l0, hl0, h0⟩
  rw [← h0]
  exact linePiece_no_nl l0 (splitLines_no_nl data l0 hl0)

theorem withIdx_mem_snd {α : Type} (l : List α) : ∀ (s : Nat) (q : Nat × α),
    q ∈ withIdx s l → q.2 ∈ l := by
  induction l with
  | nil => intro s q hq; simp [withIdx] at hq
  | cons b rest ih =>
    intro s q hq
    rcases List.mem_cons.mp hq with heq | hq
    · rw [heq]; exact List.mem_cons_self b rest
    · exact List.mem_cons_of_mem b (ih (s + 1) q hq)

theorem withIdx_mem_get {α : Type} (l : List α) : ∀ (s j : Nat) (x : α),
    (j, x) ∈ withIdx s l →
      ∃ k, ∃ hk : k < l.length, j = s + k ∧ x = l.get ⟨k, hk⟩ := by
  induction l with
  | nil => intro s j x h; simp [withIdx] at h
  | cons b rest ih =>
    intro s j x h
    rcases List.mem_cons.mp h with heq | h
    · refine ⟨0, by simp, ?_, ?_⟩
      · have := congrArg Prod.fst heq; simpa using this
      · have := congrArg Prod.snd heq; simpa using this
    · rcases ih (s + 1) j x h with ⟨k, hk, hj, hx⟩
      refine ⟨k + 1, by simpa using Nat.succ_lt_succ hk, by omega, ?_⟩
      simpa using hx

theorem withIdx_get_mem {α : Type} (l : List α) : ∀ (s k : Nat)
    (hk : k < l.length), (s + k, l.get ⟨k, hk⟩) ∈ withIdx s l := by
  induction l with
  | nil => intro s k hk; simp at hk
  | cons b rest ih =>
    intro s k hk
    cases k with
    | zero => simp [withIdx]
    | succ k =>
      have hk' : k < rest.length := by simpa using Nat.lt_of_succ_lt_succ hk
      have := ih (s + 1) k hk'
      have harith : s + (k + 1) = s + 1 + k := by omega
      rw [harith]
      exact List.mem_cons_of_mem _ (by simpa using this)

theorem scan_filtered_ascii (data : List Nat) :
    ∀ b ∈ (scan data).filtered, isAscii b = true := by
  rw [scan_filtered_def]
  intro b hb
  rcases List.mem_flatten.mp hb with ⟨piece, hp, hbp⟩
  rcases List.mem_map.mp hp with ⟨l, hl, hpl⟩
  rw [← hpl] at hbp
  rcases List.mem_append.mp hbp with h | h
  · exact linePiece_ascii l b h
  · have : b = 10 := by simpa using h
    rw [this]; decide

theorem linePositions_nil (n : Nat) (l : List Nat)
    (h : ∀ b ∈ l, isAscii b = true) : linePositions n l = [] := by
  unfold linePositions
  apply List.filterMap_eq_nil_iff.mpr
  intro q hq
  simp [h q.2 (withIdx_mem_snd l 1 q hq)]

theorem rescan_positions_nil (data : List Nat) :
    (scan (scan data).filtered).non_ascii_positions = [] := by
  rw [scan_positions_def]
  apply List.flatten_eq_nil_iff.mpr
  intro x hx
  rcases List.mem_map.mp hx with ⟨p, hp, hxp⟩
  rw [← hxp]
  cases hw : watermark_match p.2 with
  | some m => simp
  | none =>
    apply linePositions_nil
    intro b hb
    have hline := withIdx_mem_snd _ 1 p hp
    rw [splitLines_scan] at hline
    rcases List.mem_map.mp hline with ⟨l0, hl0, hpl⟩
    rw [← hpl] at hb
    exact linePiece_ascii l0 b hb

/-! ### Idempotence (C2) and line-count preservation (C6) -/

/-- C2 counterexample: for input `*\xff*\xff*` the filtered output is
`***\n`, whose single line now matches the asterisk-run watermark pattern,
so the rescan reports a watermark hit and changes the content — scanning
is not idempotent as claimed. -/
theorem scan_not_idempotent :
    ¬ ((scan (scan [42, 255, 42, 255, 42]).filtered).non_ascii_positions = []
        ∧ (scan (scan [42, 255, 42, 255, 42]).filtered).watermark_hits = []
        ∧ (scan (scan [42, 255, 42, 255, 42]).filtered).filtered =
            (scan [42, 255, 42, 255, 42]).filtered) := by decide

/-- C2 (amended): rescanning the filtered output never yields non-ASCII
positions; and whenever no line of `scan(b).filtered` matches a watermark
pattern, the rescan also yields no watermark hits and returns the filtered
bytes unchanged. (Unrestricted idempotence fails: byte-filtering can
create a new watermark line, see the counterexample.) -/
theorem scan_idempotent_amended (data : List Nat) :
    (scan (scan data).filtered).non_ascii_positions = [] ∧
    ((∀ l ∈ splitLines (scan data).filtered, watermark_match l = none) →
      (scan (scan data).filtered).watermark_hits = [] ∧
      (scan (scan data).filtered).filtered = (scan data).filtered) := by
  refine ⟨rescan_positions_nil data, fun hw => ⟨?_, ?_⟩⟩
  · rw [scan_hits_def]
    apply List.filterMap_eq_nil_iff.mpr
    intro p hp
    rw [hw p.2 (withIdx_mem_snd _ 1 p hp)]
    rfl
  · rw [scan_filtered_def (scan data).filtered]
    have hmap : (splitLines (scan data).filtered).map
          (fun l => linePiece l ++ [10])
        = (splitLines (scan data).filtered).map (fun l => l ++ [10]) := by
      apply List.map_congr_left
      intro l hl
      have hwm := hw l hl
      have hascii : ∀ b ∈ l, isAscii b = true := by
        rw [splitLines_scan] at hl
        rcases List.mem_map.mp hl with ⟨l0, hl0, hpl⟩
        intro b hb
        rw [← hpl] at hb
        exact linePiece_ascii l0 b hb
      have hpiece : linePiece l = l := by
        unfold linePiece
        rw [hwm]
        exact List.filter_eq_self.mpr hascii
      rw [hpiece]
    rw [hmap, splitLines_scan, ← map_piece_term, ← scan_filtered_def]

theorem scan_idempotent_amended_witness :
    (scan (scan [99, 97, 102, 195, 169, 10]).filtered).non_ascii_positions
        = [] ∧
    (scan (scan [99, 97, 102, 195, 169, 10]).filtered).watermark_hits = [] ∧
    (scan (scan [99, 97, 102, 195, 169, 10]).filtered).filtered =
      (scan [99, 97, 102, 195, 169, 10]).filtered := by
  have h := scan_idempotent_amended [99, 97, 102, 195, 169, 10]
  exact ⟨h.1, (h.2 (by decide)).1, (h.2 (by decide)).2⟩

theorem flatten_count10 (L : List (List Nat)) (h : ∀ l ∈ L, 10 ∉ l) :
    ((L.map (fun l => l ++ [10])).flatten).count 10 = L.length := by
  induction L with
  | nil => simp
  | cons l L ih =>
    have hl : 10 ∉ l := h l (List.mem_cons_self l L)
    have hL : ∀ x ∈ L, 10 ∉ x := fun x hx => h x (List.mem_cons_of_mem l hx)
    simp [List.count_append, ih hL, List.count_eq_zero.mpr hl]

/-- C6: line-count preservation — `scan(b).filtered` has exactly as many
terminator-delimited lines as `b` has lines (one terminator appended per
input line, watermark lines kept as empty lines rather than spliced out),
both as a line count and as a terminator count. -/
theorem line_count_preservation (data : List Nat) :
    (splitLines (scan data).filtered).length = (splitLines data).length ∧
    (scan data).filtered.count 10 = (splitLines data).length := by
  constructor
  · rw [splitLines_scan]; simp
  · rw [scan_filtered_def, map_piece_term, flatten_count10]
    · simp
    · intro l hl
      rcases List.mem_map.mp hl with ⟨l0, hl0, hpl⟩
      rw [← hpl]
      exact linePiece_no_nl l0 (splitLines_no_nl data l0 hl0)

/-! ### The appended final terminator (C4) -/

theorem splitOnNl_length (d : List Nat) :
    (splitOnNl d).length = d.count 10 + 1 := by
  induction d with
  | nil => simp [splitOnNl]
  | cons b rest ih =>
    by_cases hb : b = 10
    · subst hb
      have hs : splitOnNl (10 :: rest) = [] :: splitOnNl rest := by
        simp [splitOnNl]
      rw [hs]
      simp [ih, List.count_cons]
    · have hs : splitOnNl (b :: rest) =
          (b :: (splitOnNl rest).headI) :: (splitOnNl rest).tail := by
        simp [splitOnNl, hb]
      rw [hs]
      have hpos : 0 < (splitOnNl rest).length :=
        List.length_pos.mpr (splitOnNl_ne_nil rest)
      simp [List.count_cons, hb]
      omega

theorem splitLines_ne_nil (data : List Nat) (h : data ≠ []) :
    splitLines data ≠ [] := by
  rcases data with _ | ⟨b, rest⟩
  · exact absurd rfl h
  simp only [splitLines]
  by_cases hc : (splitOnNl (b :: rest)).getLast? = some ([] : List Nat)
  · rw [if_pos hc]
    have hlen : (splitOnNl (b :: rest)).length = (b :: rest).count 10 + 1 :=
      splitOnNl_length _
    have hcount : 1 ≤ (b :: rest).count 10 := by
      by_contra hn
      have h0 : (b :: rest).count 10 = 0 := by omega
      have hnot : (10 : Nat) ∉ b :: rest := List.count_eq_zero.mp h0
      have hb : b ≠ 10 := by
        intro hbe; subst hbe; exact hnot (List.mem_cons_self _ _)
      have hs : splitOnNl (b :: rest) =
          (b :: (splitOnNl rest).headI) :: (splitOnNl rest).tail := by
        simp [splitOnNl, hb]
      have hlen1 : (splitOnNl (b :: rest)).length = 1 := by omega
      rw [hs] at hlen1 hc
      have htail : (splitOnNl rest).tail = [] := by
        have hlen2 : ((splitOnNl rest).tail).length = 0 := by
          simp only [List.length_cons] at hlen1
          omega
        exact List.length_eq_zero.mp hlen2
      rw [htail] at hc
      simp at hc
    intro hnil
    have hlen0 := congrArg List.length hnil
    rw [List.length_dropLast, hlen] at hlen0
    simp at hlen0
    omega
  · rw [if_neg hc]
    exact splitOnNl_ne_nil _

theorem flatten_term_getLast (L : List (List Nat)) (h : L ≠ []) :
    ((L.map (fun l => l ++ [10])).flatten).getLast? = some 10 := by
  induction L with
  | nil => exact absurd rfl h
  | cons l L ih =>
    cases L with
    | nil => simp
    | cons l2 L2 =>
      rw [List.map_cons, List.flatten_cons, List.getLast?_append,
        ih (by simp)]
      rfl

/-- C4 counterexample: for the empty input the spec's engine produces no
lines at all, so `filtered` is empty and ends with no terminator — the
claim fails for inputs with no final line. -/
theorem trailing_terminator_cex :
    ¬ ((scan ([] : List Nat)).filtered.getLast? = some 10) := by decide

/-- C4 (amended): for every nonempty input — with a final line to
terminate — `scan(b).filtered` ends with a line terminator, the original
input ending with one or not. -/
theorem trailing_terminator_amended (data : List Nat) (h : data ≠ []) :
    (scan data).filtered.getLast? = some 10 := by
  rw [scan_filtered_def, map_piece_term]
  apply flatten_term_getLast
  intro hc
  exact splitLines_ne_nil data h (by simpa using hc)

theorem trailing_terminator_witness :
    (scan [97]).filtered.getLast? = some 10 :=
  trailing_terminator_amended [97] (by decide)

/-! ### Watermark priority (C3) -/

/-- C3 counterexample: for input `*\xff*\xff*` the input line matches no
watermark pattern, but after byte-filtering the resulting `filtered`
contains the line `***`, which does match a watermark pattern — so
`filtered` is not free of watermark-matching lines. -/
theorem watermark_in_filtered_cex :
    splitLines (scan [42, 255, 42, 255, 42]).filtered = [[42, 42, 42]] ∧
    watermark_match [42, 42, 42] = some (1, "asterisk-run") := by decide

/-- C3 (amended): every line of the input that matches a watermark pattern
is dropped wholesale — recorded in `watermark_hits` at
`(line, match start column, label)`, replaced in `filtered` by an empty
line (only a terminator), and contributing no `non_ascii_positions`
entries even if it contains non-ASCII bytes. (The claim's final
consequence fails: `filtered` can still contain a watermark-matching line,
created from a non-matching line by byte filtering — see the
counterexample.) -/
theorem watermark_priority (data : List Nat) (i : Nat)
    (hi : i < (splitLines data).length) (c : Nat) (lab : String)
    (hm : watermark_match ((splitLines data).get ⟨i, hi⟩) = some (c, lab)) :
    (i + 1, c, lab) ∈ (scan data).watermark_hits ∧
    (splitLines (scan data).filtered)[i]? = some [] ∧
    ∀ p ∈ (scan data).non_ascii_positions, p.1 ≠ i + 1 := by
  refine ⟨?_, ?_, ?_⟩
  · rw [scan_hits_def]
    apply List.mem_filterMap.mpr
    have hm2 : watermark_match ((splitLines data)[i]) = some (c, lab) := hm
    refine ⟨(i + 1, (splitLines data).get ⟨i, hi⟩), ?_, by simp [hm2]⟩
    have hmem := withIdx_get_mem (splitLines data) 1 i hi
    have h1 : i + 1 = 1 + i := by omega
    rw [h1]
    exact hmem
  · rw [splitLines_scan, List.getElem?_map,
      List.getElem?_eq_getElem hi]
    have hpi : linePiece ((splitLines data)[i]) = [] := by
      unfold linePiece
      have hm2 : watermark_match ((splitLines data)[i]) = some (c, lab) := hm
      rw [hm2]
    simp [hpi]
  · rw [scan_positions_def]
    intro p hp
    rcases List.mem_flatten.mp hp with ⟨x, hx, hpx⟩
    rcases List.mem_map.mp hx with ⟨q, hq, hxq⟩
    rw [← hxq] at hpx
    cases hw : watermark_match q.2 with
    | some m =>
      rw [hw] at hpx
      simp at hpx
    | none =>
      rw [hw] at hpx
      have hp1 : p.1 = q.1 := by
        unfold linePositions at hpx
        rcases List.mem_filterMap.mp hpx with ⟨r, hr, hfr⟩
        by_cases hra : isAscii r.2 = true
        · rw [if_pos hra] at hfr; cases hfr
        · rw [if_neg hra] at hfr
          injection hfr with hfr2
          rw [← hfr2]
      intro hcontra
      rcases withIdx_mem_get _ 1 q.1 q.2 hq with ⟨k, hk, hjk, hq2⟩
      have hki : k = i := by omega
      subst hki
      have heq : (splitLines data).get ⟨k, hk⟩ =
          (splitLines data).get ⟨k, hi⟩ := rfl
      rw [hq2, heq, hm] at hw
      cases hw

theorem watermark_priority_witness :
    (1, 1, "asterisk-run") ∈ (scan [42, 42, 42, 255, 10, 97]).watermark_hits
      ∧ (splitLines (scan [42, 42, 42, 255, 10, 97]).filtered)[0]?
          = some [] := by
  have h := watermark_priority [42, 42, 42, 255, 10, 97] 0 (by decide) 1
    "asterisk-run" (by decide)
  exact ⟨h.1, h.2.1⟩

/-! ### Directory collection of `filescan` (C9) -/

/-- One directory entry as the collection loop of `filescan` sees it: its
path (modelled by an identifier), whether it is a regular file, and its
extension, when it has one. -/
structure DirEntry where
  path : Nat
  isFile : Bool
  ext : Option String
deriving Repr, DecidableEq

/-- The fixed extension denylist of `filescan`: binary/executable, image,
video/audio and archive extensions, matched after lowercasing. -/
def denylist : List String :=
  ["exe", "dll", "so", "dylib", "bin", "obj", "o", "a", "lib",
   "jpg", "jpeg", "png", "gif", "bmp", "ico", "svg",
   "mp4", "avi", "mkv", "mp3", "wav", "flac",
   "zip", "rar", "7z", "tar", "gz"]

/-- The collection loop of `filescan` over the walk entries (`none` is an
`Err` entry, counted then skipped): the counter is incremented first and
once it exceeds 1000 the loop breaks outright; a duplicate path is
skipped; every fresh path is recorded as seen; a regular file is appended
to the collected list unless its lowercased extension is denylisted. -/
def collect_aux : Nat → List Nat → List DirEntry → List (Option DirEntry) →
    List DirEntry
  | _, _, acc, [] => acc
  | cnt, seen, acc, e :: rest =>
    if cnt + 1 > 1000 then acc
    else
      match e with
      | none => collect_aux (cnt + 1) seen acc rest
      | some d =>
        if d.path ∈ seen then collect_aux (cnt + 1) seen acc rest
        else
          if d.isFile then
            match d.ext with
            | some x =>
              if x.toLower ∈ denylist then
                collect_aux (cnt + 1) (d.path :: seen) acc rest
              else collect_aux (cnt + 1) (d.path :: seen) (acc ++ [d]) rest
            | none => collect_aux (cnt + 1) (d.path :: seen) (acc ++ [d]) rest
          else collect_aux (cnt + 1) (d.path :: seen) acc rest

/-- The file list `filescan` collects before processing. -/
def collect_files (entries : List (Option DirEntry)) : List DirEntry :=
  collect_aux 0 [] [] entries

theorem collect_aux_mem (entries : List (Option DirEntry)) :
    ∀ (cnt : Nat) (seen : List Nat) (acc : List DirEntry) (x : DirEntry),
      x ∈ collect_aux cnt seen acc entries →
        x ∈ acc ∨ some x ∈ entries.take (1000 - cnt) := by
  induction entries with
  | nil =>
    intro cnt seen acc x hx
    left
    simpa [collect_aux] using hx
  | cons e rest ih =>
    intro cnt seen acc x hx
    rw [collect_aux.eq_def] at hx
    by_cases hc : cnt + 1 > 1000
    · simp only [hc, if_true] at hx
      exact Or.inl hx
    · have htake : (e :: rest).take (1000 - cnt) =
          e :: rest.take (1000 - (cnt + 1)) := by
        have h1 : 1000 - cnt = (1000 - (cnt + 1)) + 1 := by omega
        rw [h1, List.take_succ_cons]
      rw [htake]
      have hstep : ∀ seen2 : List Nat,
          x ∈ collect_aux (cnt + 1) seen2 acc rest →
            x ∈ acc ∨ some x ∈ e :: rest.take (1000 - (cnt + 1)) := by
        intro seen2 hx2
        rcases ih (cnt + 1) seen2 acc x hx2 with h | h
        · exact Or.inl h
        · exact Or.inr (List.mem_cons_of_mem _ h)
      have hstep2 : ∀ (seen2 : List Nat) (d : DirEntry), e = some d →
          x ∈ collect_aux (cnt + 1) seen2 (acc ++ [d]) rest →
            x ∈ acc ∨ some x ∈ e :: rest.take (1000 - (cnt + 1)) := by
        intro seen2 d he hx2
        rcases ih (cnt + 1) seen2 (acc ++ [d]) x hx2 with h | h
        · rcases List.mem_append.mp h with h1 | h1
          · exact Or.inl h1
          · have hxd : x = d := by simpa using h1
            rw [hxd, he]
            exact Or.inr (List.mem_cons_self _ _)
        · exact Or.inr (List.mem_cons_of_mem _ h)
      rcases e with _ | d
      · simp only [hc, if_false] at hx
        exact hstep seen hx
      · by_cases hseen : d.path ∈ seen
        · simp only [hc, if_false, hseen, if_true] at hx
          exact hstep seen hx
        · cases hfile : d.isFile with
          | false =>
            simp only [hc, if_false, hseen, hfile] at hx
            exact hstep _ hx
          | true =>
            rcases hext : d.ext with _ | xext
            · simp only [hc, if_false, hseen, hfile, hext] at hx
              exact hstep2 _ d rfl hx
            · by_cases hdeny : xext.toLower ∈ denylist
              · simp only [hc, if_false, hseen, hfile, hext, hdeny,
                  if_true] at hx
                exact hstep _ hx
              · simp only [hc, if_false, hseen, hfile, hext, hdeny] at hx
                exact hstep2 _ d rfl hx

/-- The walk entries of a directory holding 1001 regular files, none with
an extension, all with distinct paths. -/
def entries1001 : List (Option DirEntry) :=
  (List.range 1001).map (fun i => some ⟨i, true, none⟩)

set_option maxRecDepth 8000 in
/-- C9 fails on the code: the 1001st walk entry is a regular file with no
denylisted extension, yet it is never collected for scanning — the
debugging safety break in `filescan` stops the collection once the entry
counter exceeds 1000. -/
theorem safety_break_drops_files :
    some (⟨1000, true, none⟩ : DirEntry) ∈ entries1001 ∧
    (⟨1000, true, none⟩ : DirEntry).isFile = true ∧
    (⟨1000, true, none⟩ : DirEntry) ∉ collect_files entries1001 := by
  refine ⟨?_, rfl, ?_⟩
  · exact List.mem_map.mpr ⟨1000, List.mem_range.mpr (by omega), rfl⟩
  · intro hmem
    rcases collect_aux_mem entries1001 0 [] [] _ hmem with h | h
    · simp at h
    · have htake : entries1001.take (1000 - 0) =
          (List.range 1000).map
            (fun i => some (⟨i, true, none⟩ : DirEntry)) := by
        decide
      rw [htake] at h
      rcases List.mem_map.mp h with ⟨i, hi, heq⟩
      have hi1000 : i < 1000 := List.mem_range.mp hi
      have : i = 1000 := by
        have h2 := congrArg (fun o => (Option.map DirEntry.path o).getD 0) heq
        simpa using h2
      omega
